import Mathlib

/-
Verification of the calcast arithmetic-expression parser/evaluator.

Shallow embedding notes.
* Go float64 values are idealised as rationals; floating-point tolerance in the
  specification becomes exact equality over the rationals.
* The Go lexer (text/scanner with ScanIdents, ScanInts and ScanFloats) is
  modelled on character lists: whitespace is skipped, maximal digit runs with an
  optional fractional part form number tokens (strconv.ParseFloat on a
  scanner-produced token always succeeds, so the token carries its rational
  value), identifier-looking runs form identifier tokens, and every other
  character is a single-character symbol token.  Exponent and hexadecimal
  literal forms of the scanner are not modelled; no claim mentions them.
* Errors returned by Go functions carry wrapped message strings; no claim
  inspects message text, so fallible functions return Option, with none for the
  error case, and evaluation errors are modelled by their root-cause kind.
* Both recursive-descent parsers are modelled with an explicit fuel parameter
  to make the definitions structurally recursive and executable; the fuel used
  by Parse and EvalParse is generous enough for the given token list, and the
  fuel-monotonicity lemma below shows extra fuel never changes a successful
  result.
-/

/-- Expression model from the repository: a num literal (Go type num, a
floating number), a unary operator applied to one operand (Go type unary), and
a binary operator applied to two operands (Go type binary). -/
inductive Expr where
  | num (v : ℚ)
  | unary (op : Char) (x : Expr)
  | binary (op : Char) (x y : Expr)
deriving DecidableEq

/-- Root causes of evaluation errors in the Go Eval methods: division by zero,
an unsupported unary operator, an unsupported binary operator.  Go wraps child
errors in context messages; the root-cause kind is preserved, which is what
this model keeps. -/
inductive EvalErr where
  | divByZero
  | unsupUnary (op : Char)
  | unsupBinary (op : Char)
deriving DecidableEq

/-- Len from the repository: num.Len = 1, unary.Len = x.Len + 1,
binary.Len = x.Len + y.Len + 1. -/
def Len : Expr → Nat
  | .num _ => 1
  | .unary _ x => Len x + 1
  | .binary _ x y => Len x + Len y + 1

/-- Eval from the repository.  num evaluates to its value; unary evaluates the
operand and applies a sign, rejecting any operator other than plus or minus;
binary evaluates the left operand, then the right (errors short-circuit), then
applies the operator, rejecting division when the divisor is exactly zero and
rejecting unknown operators. -/
def Eval : Expr → Except EvalErr ℚ
  | .num v => .ok v
  | .unary op x =>
    match Eval x with
    | .error e => .error e
    | .ok xv =>
      if op = '+' then .ok xv
      else if op = '-' then .ok (-xv)
      else .error (.unsupUnary op)
  | .binary op x y =>
    match Eval x with
    | .error e => .error e
    | .ok xv =>
      match Eval y with
      | .error e => .error e
      | .ok yv =>
        if op = '+' then .ok (xv + yv)
        else if op = '-' then .ok (xv - yv)
        else if op = '*' then .ok (xv * yv)
        else if op = '/' then
          if yv = 0 then .error .divByZero else .ok (xv / yv)
        else .error (.unsupBinary op)

/-- Value component of the pair returned by the Go Eval methods: every error
path in the Go code returns the value 0 alongside the error, and the eager
parser reads exactly this component while discarding the error. -/
def evalV (e : Expr) : ℚ :=
  match Eval e with
  | .ok v => v
  | .error _ => 0

/-- Total binary-operator application realised by the eager parser through its
discarded-error evaluations: division by zero and unsupported operators
contribute the value 0 (the value Go Eval returns alongside such errors). -/
def lenApp (op : Char) (a b : ℚ) : ℚ :=
  if op = '+' then a + b
  else if op = '-' then a - b
  else if op = '*' then a * b
  else if op = '/' then (if b = 0 then 0 else a / b)
  else 0

/-- Derived error-swallowing semantics of the eager parsing mode: the value the
fused parse computes for the tree the ordinary parser would have built.  Nodes
whose evaluation would error contribute the value 0, mirroring the ignored
error results in evalparse.go. -/
def evalLenient : Expr → ℚ
  | .num v => v
  | .unary op x =>
    if op = '+' then evalLenient x
    else if op = '-' then -evalLenient x
    else 0
  | .binary op x y => lenApp op (evalLenient x) (evalLenient y)

/-- Decimal digit character for a digit value, as produced when formatting. -/
def digitChar : Nat → Char
  | 0 => '0'
  | 1 => '1'
  | 2 => '2'
  | 3 => '3'
  | 4 => '4'
  | 5 => '5'
  | 6 => '6'
  | 7 => '7'
  | 8 => '8'
  | _ => '9'

/-- Decimal digit list of a natural number, most significant digit first,
written with fuel to keep the definition structurally recursive. -/
def natDigitsF : Nat → Nat → List Char
  | 0, _ => []
  | f + 1, n =>
    if n < 10 then [digitChar n]
    else natDigitsF f (n / 10) ++ [digitChar (n % 10)]

/-- Decimal digit list of a natural number (fuel instantiated). -/
def natDigitsChars (n : Nat) : List Char := natDigitsF (n + 1) n

/-- Exactly two decimal digits for a value below one hundred, as the fractional
part of the two-decimal rendering. -/
def twoDigits (m : Nat) : List Char := [digitChar (m / 10), digitChar (m % 10)]

/-- Two-decimal rendering of a nonnegative rational, modelling the Go format
verb used by num.String.  The value is rounded to hundredths; on the exact
two-decimal values all the theorems below use, no rounding occurs, so the
difference between rounding modes is irrelevant. -/
def fmt2abs (v : ℚ) : List Char :=
  natDigitsChars ((round (v * 100)).toNat / 100) ++
    '.' :: twoDigits ((round (v * 100)).toNat % 100)

/-- Two-decimal rendering of a rational, with a leading minus sign for negative
values, modelling num.String. -/
def fmt2 (v : ℚ) : List Char :=
  if v < 0 then '-' :: fmt2abs (-v) else fmt2abs v

/-- String rendering from the repository: num.String prints the value to two
decimals; unary.String prints the operator directly followed by the operand;
binary.String prints the left operand, a space, the operator, a space, the
right operand — with no parentheses. -/
def fmt : Expr → List Char
  | .num v => fmt2 v
  | .unary op x => op :: fmt x
  | .binary op x y => fmt x ++ ' ' :: op :: ' ' :: fmt y

/-- Tokens delivered by the lexer: a number (carrying its rational value), a
single-character symbol, or an identifier.  End of input is represented by the
end of the token list. -/
inductive Tok where
  | tnum (v : ℚ)
  | tsym (c : Char)
  | tident
deriving DecidableEq

/-- priority from parse.go: multiplication and division bind at level 2,
addition and subtraction at level 1, anything else at level 0. -/
def priority (c : Char) : Nat :=
  if c = '*' ∨ c = '/' then 2
  else if c = '+' ∨ c = '-' then 1
  else 0

/-- priority of the lexer's current token: symbol tokens use the character
priority; numbers, identifiers and end of input have priority 0 (their token
runes fall through the Go priority switch). -/
def priorityT : Option Tok → Nat
  | some (.tsym c) => priority c
  | _ => 0

/-- Numeric value of a list of decimal digit characters. -/
def digitsVal (cs : List Char) : Nat :=
  cs.foldl (fun a c => 10 * a + (c.toNat - 48)) 0

/-- Value contributed by the fractional digit run of a float literal. -/
def fracVal (cs : List Char) : ℚ :=
  (digitsVal cs : ℚ) / (10 : ℚ) ^ cs.length

/-- Whitespace characters skipped by the scanner. -/
def isWSChar (c : Char) : Bool :=
  c = ' ' || c = '\t' || c = '\n' || c = '\r'

/-- Characters that may start an identifier token. -/
def isIdentStart (c : Char) : Bool := c.isAlpha || c = '_'

/-- Characters that may continue an identifier token. -/
def isIdentCont (c : Char) : Bool := c.isAlpha || c.isDigit || c = '_'

/-- Lexer model (fuelled): skip whitespace; a digit starts a number token made
of a maximal digit run with an optional dot-separated fractional digit run; a
letter or underscore starts an identifier token; any other character is a
single-character symbol token. -/
def lexChars : Nat → List Char → List Tok
  | 0, _ => []
  | _ + 1, [] => []
  | f + 1, c :: cs =>
    if isWSChar c then lexChars f cs
    else if c.isDigit then
      match (c :: cs).dropWhile Char.isDigit with
      | d :: r2 =>
        if d = '.' then
          Tok.tnum ((digitsVal ((c :: cs).takeWhile Char.isDigit) : ℚ) +
              fracVal (r2.takeWhile Char.isDigit)) ::
            lexChars f (r2.dropWhile Char.isDigit)
        else
          Tok.tnum (digitsVal ((c :: cs).takeWhile Char.isDigit)) ::
            lexChars f (d :: r2)
      | [] => Tok.tnum (digitsVal ((c :: cs).takeWhile Char.isDigit)) :: lexChars f []
    else if isIdentStart c then
      Tok.tident :: lexChars f ((c :: cs).dropWhile isIdentCont)
    else Tok.tsym c :: lexChars f cs

/-- Lexer over a character list, with sufficient fuel. -/
def lexS (cs : List Char) : List Tok := lexChars (cs.length + 1) cs

/-- Fuel used by the top-level parsing functions: ample for the token list,
since every recursive call in the descent either consumes a token or moves to
a strictly smaller phase. -/
def parseFuel (ts : List Tok) : Nat := 5 * ts.length + 10

mutual

/-- parseBinary from parse.go: parse a unary operand, then run the
priority-descending operator loop starting from the priority of the current
lookahead token. -/
def parseBinary : Nat → List Tok → Nat → Option (Expr × List Tok)
  | 0, _, _ => none
  | f + 1, ts, prio0 =>
    match parseUnary f ts with
    | none => none
    | some (left, ts1) => parseOuter f (priorityT ts1.head?) prio0 left ts1
termination_by structural f => f

/-- Outer loop of parseBinary: while the loop priority is at least the minimum
priority, run the inner same-priority loop, then decrement the loop priority. -/
def parseOuter : Nat → Nat → Nat → Expr → List Tok → Option (Expr × List Tok)
  | 0, _, _, _, _ => none
  | f + 1, prio, prio0, left, ts =>
    if prio0 ≤ prio then
      match parseInner f prio left ts with
      | none => none
      | some (left1, ts1) => parseOuter f (prio - 1) prio0 left1 ts1
    else some (left, ts)
termination_by structural f => f

/-- Inner loop of parseBinary: while the lookahead token is an operator of
exactly the loop priority, consume it, parse the right operand one priority
level higher, and fold the result into the left operand.  The loop priority is
always at least 1 here, so a lookahead of matching priority is necessarily a
symbol token. -/
def parseInner : Nat → Nat → Expr → List Tok → Option (Expr × List Tok)
  | 0, _, _, _ => none
  | f + 1, prio, left, ts =>
    match ts with
    | .tsym op :: rest =>
      if priority op = prio then
        match parseBinary f rest (prio + 1) with
        | none => none
        | some (right, ts1) => parseInner f prio (.binary op left right) ts1
      else some (left, ts)
    | _ => some (left, ts)
termination_by structural f => f

/-- parseUnary from parse.go: a leading plus or minus sign wraps a recursively
parsed unary operand; otherwise parse a primary. -/
def parseUnary : Nat → List Tok → Option (Expr × List Tok)
  | 0, _ => none
  | f + 1, ts =>
    match ts with
    | .tsym c :: rest =>
      if c = '+' ∨ c = '-' then
        match parseUnary f rest with
        | none => none
        | some (e, ts1) => some (.unary c e, ts1)
      else parsePrimary f ts
    | _ => parsePrimary f ts
termination_by structural f => f

/-- parsePrimary from parse.go: a number token becomes a literal; an opening
parenthesis is followed by a full expression (parseExpr, inlined here as a
minimum-priority-1 parseBinary) and a required closing parenthesis; anything
else is a syntax error. -/
def parsePrimary : Nat → List Tok → Option (Expr × List Tok)
  | 0, _ => none
  | f + 1, ts =>
    match ts with
    | .tnum v :: rest => some (.num v, rest)
    | .tsym c :: rest =>
      if c = '(' then
        match parseBinary f rest 1 with
        | none => none
        | some (e, ts1) =>
          match ts1 with
          | .tsym c2 :: ts2 => if c2 = ')' then some (e, ts2) else none
          | _ => none
      else none
    | _ => none
termination_by structural f => f

end

/-- parseExpr from parse.go: entry point, a parseBinary at minimum priority 1. -/
def parseExpr (f : Nat) (ts : List Tok) : Option (Expr × List Tok) :=
  parseBinary f ts 1

/-- Parse from parse.go: parse a full expression, then require the lookahead to
be end of input; any parse error or trailing input yields an error (none). -/
def Parse (ts : List Tok) : Option Expr :=
  match parseExpr (parseFuel ts) ts with
  | some (e, []) => some e
  | _ => none

mutual

/-- evalparseBinary from evalparse.go: identical descent to parseBinary, but
after the operator loops finish the accumulated operand is evaluated (its error
discarded) and returned as a literal. -/
def evalparseBinary : Nat → List Tok → Nat → Option (Expr × List Tok)
  | 0, _, _ => none
  | f + 1, ts, prio0 =>
    match evalparseUnary f ts with
    | none => none
    | some (left, ts1) =>
      match evalparseOuter f (priorityT ts1.head?) prio0 left ts1 with
      | none => none
      | some (left1, ts2) => some (.num (evalV left1), ts2)
termination_by structural f => f

/-- Outer loop of evalparseBinary, identical control flow to parseOuter. -/
def evalparseOuter : Nat → Nat → Nat → Expr → List Tok → Option (Expr × List Tok)
  | 0, _, _, _, _ => none
  | f + 1, prio, prio0, left, ts =>
    if prio0 ≤ prio then
      match evalparseInner f prio left ts with
      | none => none
      | some (left1, ts1) => evalparseOuter f (prio - 1) prio0 left1 ts1
    else some (left, ts)
termination_by structural f => f

/-- Inner loop of evalparseBinary: like parseInner, except the left operand is
evaluated (its error discarded) and replaced by a literal before being folded
under the new binary node. -/
def evalparseInner : Nat → Nat → Expr → List Tok → Option (Expr × List Tok)
  | 0, _, _, _ => none
  | f + 1, prio, left, ts =>
    match ts with
    | .tsym op :: rest =>
      if priority op = prio then
        match evalparseBinary f rest (prio + 1) with
        | none => none
        | some (right, ts1) =>
          evalparseInner f prio (.binary op (.num (evalV left)) right) ts1
      else some (left, ts)
    | _ => some (left, ts)
termination_by structural f => f

/-- evalparseUnary from evalparse.go: a sign wraps the recursively parsed
operand after evaluating it (error discarded) into a literal. -/
def evalparseUnary : Nat → List Tok → Option (Expr × List Tok)
  | 0, _ => none
  | f + 1, ts =>
    match ts with
    | .tsym c :: rest =>
      if c = '+' ∨ c = '-' then
        match evalparseUnary f rest with
        | none => none
        | some (e, ts1) => some (.unary c (.num (evalV e)), ts1)
      else evalparsePrimary f ts
    | _ => evalparsePrimary f ts
termination_by structural f => f

/-- evalparsePrimary from evalparse.go: like parsePrimary, but a parenthesised
subexpression is evaluated (error discarded) into a literal.  On a failed inner
parse the Go code would dereference a nil expression before returning; the
model folds that aborted run into the error outcome. -/
def evalparsePrimary : Nat → List Tok → Option (Expr × List Tok)
  | 0, _ => none
  | f + 1, ts =>
    match ts with
    | .tnum v :: rest => some (.num v, rest)
    | .tsym c :: rest =>
      if c = '(' then
        match evalparseBinary f rest 1 with
        | none => none
        | some (e, ts1) =>
          match ts1 with
          | .tsym c2 :: ts2 =>
            if c2 = ')' then some (.num (evalV e), ts2) else none
          | _ => none
      else none
    | _ => none
termination_by structural f => f

end

/-- EvalParse from evalparse.go: parse-and-evaluate a full expression
(evalparseExpr, a minimum-priority-1 evalparseBinary), then require end of
input. -/
def EvalParse (ts : List Tok) : Option Expr :=
  match evalparseBinary (parseFuel ts) ts 1 with
  | some (e, []) => some e
  | _ => none

/-- Character-equality facts used to reduce the operator tests in Eval. -/
@[simp] theorem starNePlus : (( '*' : Char) = '+') = False := by decide

@[simp] theorem starNeMinus : (( '*' : Char) = '-') = False := by decide

@[simp] theorem slashNePlus : (( '/' : Char) = '+') = False := by decide

@[simp] theorem slashNeMinus : (( '/' : Char) = '-') = False := by decide

@[simp] theorem slashNeStar : (( '/' : Char) = '*') = False := by decide

@[simp] theorem minusNePlus : (( '-' : Char) = '+') = False := by decide

theorem Eval_num (v : ℚ) : Eval (.num v) = .ok v := rfl

theorem evalV_num (v : ℚ) : evalV (.num v) = v := rfl

theorem evalV_of_ok {e : Expr} {v : ℚ} (h : Eval e = .ok v) : evalV e = v := by
  simp [evalV, h]

theorem evalV_binary_num (op : Char) (a b : ℚ) :
    evalV (.binary op (.num a) (.num b)) = lenApp op a b := by
  simp only [evalV, Eval, lenApp]
  split_ifs <;> simp_all

theorem evalV_unary_num (c : Char) (a : ℚ) (h : c = '+' ∨ c = '-') :
    Eval (.unary c (.num a)) = .ok (if c = '+' then a else -a) := by
  rcases h with h | h <;> simp [Eval, h]

/-- Claim C4: parsing 2*1+2 yields the plus operator at the root, with left
child the subtree for 2*1 and right child the literal 2; parsing 2+1*2 yields
plus at the root with left child the literal 2 and right child the subtree for
1*2; both trees evaluate to 4. -/
theorem claim_C4_precedence :
    Parse (lexS [ '2', '*', '1', '+', '2' ]) =
      some (.binary '+' (.binary '*' (.num 2) (.num 1)) (.num 2)) ∧
    Eval (.binary '+' (.binary '*' (.num 2) (.num 1)) (.num 2)) = .ok 4 ∧
    Parse (lexS [ '2', '+', '1', '*', '2' ]) =
      some (.binary '+' (.num 2) (.binary '*' (.num 1) (.num 2))) ∧
    Eval (.binary '+' (.num 2) (.binary '*' (.num 1) (.num 2))) = .ok 4 := by
  refine ⟨by decide, ?_, by decide, ?_⟩ <;> · norm_num [Eval]

/-- Claim C5: 1+2+3+4 parses as the left-associated tree and evaluates to 10. -/
theorem claim_C5_left_assoc :
    Parse (lexS [ '1', '+', '2', '+', '3', '+', '4' ]) =
      some (.binary '+' (.binary '+' (.binary '+' (.num 1) (.num 2)) (.num 3))
        (.num 4)) ∧
    Eval (.binary '+' (.binary '+' (.binary '+' (.num 1) (.num 2)) (.num 3))
        (.num 4)) = .ok 10 := by
  refine ⟨by decide, ?_⟩
  norm_num [Eval]

/-- Claim C8: the malformed inputs with an unmatched parenthesis, a missing
operand, and empty input each make Parse return an error and no expression.
The parse functions are total Lean functions, so no crash is possible, and the
error outcome carries no numeric result. -/
theorem claim_C8_malformed :
    Parse (lexS [ '(', '1', '+', '2' ]) = none ∧
    Parse (lexS [ '1', '+' ]) = none ∧
    Parse (lexS ([] : List Char)) = none := by
  refine ⟨by decide, by decide, by decide⟩

/-- Claim C9: Parse and EvalParse are pure functions of the token stream (each
Go call allocates a fresh lexer and shares no state across calls), so two runs
over identical inputs return structurally identical results and agree on
whether an error is returned. -/
theorem claim_C9_deterministic (ts1 ts2 : List Tok) (h : ts1 = ts2) :
    Parse ts1 = Parse ts2 ∧ EvalParse ts1 = EvalParse ts2 ∧
    (Parse ts1).isSome = (Parse ts2).isSome ∧
    (EvalParse ts1).isSome = (EvalParse ts2).isSome := by
  subst h
  exact ⟨rfl, rfl, rfl, rfl⟩

/-- Witness for claim C9 at a concrete token stream. -/
theorem claim_C9_witness :
    Parse [Tok.tnum 1, Tok.tsym '+', Tok.tnum 2] =
      Parse [Tok.tnum 1, Tok.tsym '+', Tok.tnum 2] ∧
    EvalParse [Tok.tnum 1, Tok.tsym '+', Tok.tnum 2] =
      EvalParse [Tok.tnum 1, Tok.tsym '+', Tok.tnum 2] ∧
    (Parse [Tok.tnum 1, Tok.tsym '+', Tok.tnum 2]).isSome =
      (Parse [Tok.tnum 1, Tok.tsym '+', Tok.tnum 2]).isSome ∧
    (EvalParse [Tok.tnum 1, Tok.tsym '+', Tok.tnum 2]).isSome =
      (EvalParse [Tok.tnum 1, Tok.tsym '+', Tok.tnum 2]).isSome :=
  claim_C9_deterministic _ _ rfl

/-- Counterexample for claim C2: on the input 1/0, whose evaluation reaches a
division with divisor exactly zero, EvalParse does not return a
division-by-zero error: it discards the evaluation error and returns the
literal 0 successfully, while Parse followed by Eval does report the error. -/
theorem claim_C2_counterexample :
    EvalParse (lexS [ '1', '/', '0' ]) = some (.num 0) ∧
    Parse (lexS [ '1', '/', '0' ]) = some (.binary '/' (.num 1) (.num 0)) ∧
    Eval (.binary '/' (.num 1) (.num 0)) = .error .divByZero := by
  refine ⟨by decide, by decide, ?_⟩
  norm_num [Eval]

/-- Relation between a tree-parser result and the corresponding eager-parser
result at the unary level: same remaining tokens, and the eager result is an
error-free expression evaluating to the lenient value of the tree result. -/
def SimUnary : Option (Expr × List Tok) → Option (Expr × List Tok) → Prop
  | none, none => True
  | some (e, r), some (e2, r2) => r2 = r ∧ Eval e2 = .ok (evalLenient e)
  | _, _ => False

/-- Relation between a tree-parser result and the corresponding eager-parser
result inside the operator loops: same remaining tokens, and the Go value
component of the eager result equals the lenient value of the tree result. -/
def SimLoop : Option (Expr × List Tok) → Option (Expr × List Tok) → Prop
  | none, none => True
  | some (e, r), some (e2, r2) => r2 = r ∧ evalV e2 = evalLenient e
  | _, _ => False

theorem simUnary_map (o : Option (Expr × List Tok)) :
    SimUnary o (o.map (fun p => (Expr.num (evalLenient p.1), p.2))) := by
  cases o with
  | none => trivial
  | some p =>
    obtain ⟨e, r⟩ := p
    exact ⟨rfl, rfl⟩

/-- Simulation of the tree-building parser by the eager parser, at every fuel:
the eager parser succeeds exactly when the tree parser does, leaves the same
remaining tokens, and at the binary level returns precisely the literal holding
the lenient (error-discarding) value of the tree the ordinary parser builds. -/
theorem sim_all : ∀ f : Nat,
    (∀ ts, evalparsePrimary f ts =
      (parsePrimary f ts).map (fun p => (Expr.num (evalLenient p.1), p.2))) ∧
    (∀ ts, SimUnary (parseUnary f ts) (evalparseUnary f ts)) ∧
    (∀ ts prio0, evalparseBinary f ts prio0 =
      (parseBinary f ts prio0).map (fun p => (Expr.num (evalLenient p.1), p.2))) ∧
    (∀ prio prio0 lt lf ts, evalV lf = evalLenient lt →
      SimLoop (parseOuter f prio prio0 lt ts)
        (evalparseOuter f prio prio0 lf ts)) ∧
    (∀ prio lt lf ts, evalV lf = evalLenient lt →
      SimLoop (parseInner f prio lt ts) (evalparseInner f prio lf ts)) := by
  intro f
  induction f with
  | zero =>
    exact ⟨fun ts => rfl, fun ts => trivial, fun ts prio0 => rfl,
      fun prio prio0 lt lf ts h => trivial, fun prio lt lf ts h => trivial⟩
  | succ f ih =>
    obtain ⟨ihP, ihU, ihB, ihO, ihI⟩ := ih
    refine ⟨?_, ?_, ?_, ?_, ?_⟩
    · intro ts
      cases ts with
      | nil => rfl
      | cons t rest =>
        cases t with
        | tnum v => simp [parsePrimary, evalparsePrimary, evalLenient]
        | tident => rfl
        | tsym c =>
          by_cases hc : c = '('
          · subst hc
            simp only [parsePrimary, evalparsePrimary, if_pos rfl]
            rw [ihB rest 1]
            rcases hpb : parseBinary f rest 1 with _ | ⟨e, ts1⟩
            · simp
            · simp only [Option.map_some]
              cases ts1 with
              | nil => simp
              | cons t2 ts2 =>
                cases t2 with
                | tnum w => simp
                | tident => simp
                | tsym c2 =>
                  by_cases h2 : c2 = ')'
                  · simp [h2, evalV_num]
                  · simp [h2]
          · simp [parsePrimary, evalparsePrimary, hc]
    · intro ts
      cases ts with
      | nil =>
        simp only [parseUnary, evalparseUnary]
        rw [ihP]
        exact simUnary_map _
      | cons t rest =>
        cases t with
        | tnum v =>
          simp only [parseUnary, evalparseUnary]
          rw [ihP]
          exact simUnary_map _
        | tident =>
          simp only [parseUnary, evalparseUnary]
          rw [ihP]
          exact simUnary_map _
        | tsym c =>
          by_cases hc : c = '+' ∨ c = '-'
          · simp only [parseUnary, evalparseUnary, if_pos hc]
            have h := ihU rest
            rcases hpu : parseUnary f rest with _ | ⟨e, ts1⟩ <;> rw [hpu] at h
            · rcases hpe : evalparseUnary f rest with _ | q <;> rw [hpe] at h
              · trivial
              · exact h.elim
            · rcases hpe : evalparseUnary f rest with _ | ⟨e2, r2⟩ <;>
                rw [hpe] at h
              · exact h.elim
              · obtain ⟨hr, hE⟩ := h
                subst hr
                refine ⟨rfl, ?_⟩
                have hv : evalV e2 = evalLenient e := evalV_of_ok hE
                rcases hc with h1 | h1 <;> subst h1 <;>
                  simp [Eval, evalLenient, hv]
          · simp only [parseUnary, evalparseUnary, if_neg hc]
            rw [ihP]
            exact simUnary_map _
    · intro ts prio0
      simp only [parseBinary, evalparseBinary]
      have h := ihU ts
      rcases hpu : parseUnary f ts with _ | ⟨lt, ts1⟩ <;> rw [hpu] at h
      · rcases hpe : evalparseUnary f ts with _ | q <;> rw [hpe] at h
        · rfl
        · exact h.elim
      · rcases hpe : evalparseUnary f ts with _ | ⟨lf, r2⟩ <;> rw [hpe] at h
        · exact h.elim
        · obtain ⟨hr, hE⟩ := h
          subst hr
          dsimp only
          have hInv : evalV lf = evalLenient lt := evalV_of_ok hE
          have ho := ihO (priorityT r2.head?) prio0 lt lf r2 hInv
          rcases hpo : parseOuter f (priorityT r2.head?) prio0 lt r2 with
            _ | ⟨lt1, ts2⟩ <;> rw [hpo] at ho
          · rcases hpeo : evalparseOuter f (priorityT r2.head?) prio0 lf r2
              with _ | q <;> rw [hpeo] at ho
            · simp
            · exact ho.elim
          · rcases hpeo : evalparseOuter f (priorityT r2.head?) prio0 lf r2
              with _ | ⟨lf1, r3⟩ <;> rw [hpeo] at ho
            · exact ho.elim
            · obtain ⟨hr3, hV⟩ := ho
              subst hr3
              simp [hV]
    · intro prio prio0 lt lf ts hInv
      simp only [parseOuter, evalparseOuter]
      by_cases hle : prio0 ≤ prio
      · simp only [if_pos hle]
        have hi := ihI prio lt lf ts hInv
        rcases hpi : parseInner f prio lt ts with _ | ⟨lt1, ts1⟩ <;>
          rw [hpi] at hi
        · rcases hpei : evalparseInner f prio lf ts with _ | q <;>
            rw [hpei] at hi
          · trivial
          · exact hi.elim
        · rcases hpei : evalparseInner f prio lf ts with _ | ⟨lf1, r2⟩ <;>
            rw [hpei] at hi
          · exact hi.elim
          · obtain ⟨hr, hV⟩ := hi
            subst hr
            exact ihO (prio - 1) prio0 lt1 lf1 r2 hV
      · simp only [if_neg hle]
        exact ⟨rfl, hInv⟩
    · intro prio lt lf ts hInv
      cases ts with
      | nil => exact ⟨rfl, hInv⟩
      | cons t rest =>
        cases t with
        | tnum v => exact ⟨rfl, hInv⟩
        | tident => exact ⟨rfl, hInv⟩
        | tsym op =>
          simp only [parseInner, evalparseInner]
          by_cases hp : priority op = prio
          · simp only [if_pos hp]
            rw [ihB rest (prio + 1)]
            rcases hpb : parseBinary f rest (prio + 1) with _ | ⟨rt, ts1⟩
            · trivial
            · simp only [Option.map_some]
              have hnew :
                  evalV (.binary op (.num (evalV lf)) (.num (evalLenient rt)))
                    = evalLenient (.binary op lt rt) := by
                rw [evalV_binary_num, hInv]
                rfl
              exact ihI prio _ _ ts1 hnew
          · simp only [if_neg hp]
            exact ⟨rfl, hInv⟩

/-- EvalParse is Parse followed by collapsing the tree to a literal holding its
lenient (error-discarding) value; in particular the two modes succeed on
exactly the same token streams. -/
theorem EvalParse_eq_map (ts : List Tok) :
    EvalParse ts = (Parse ts).map (fun e => Expr.num (evalLenient e)) := by
  simp only [EvalParse, Parse, parseExpr]
  rw [(sim_all (parseFuel ts)).2.2.1 ts 1]
  rcases hp : parseBinary (parseFuel ts) ts 1 with _ | ⟨e, rem⟩
  · rfl
  · cases rem with
    | nil => rfl
    | cons t r => rfl

/-- When ordinary evaluation succeeds, the lenient (error-discarding)
evaluation agrees with it: discarded errors can only matter on error paths. -/
theorem evalLenient_of_ok : ∀ {e : Expr} {v : ℚ}, Eval e = .ok v →
    evalLenient e = v := by
  intro e
  induction e with
  | num w =>
    intro v h
    simpa [Eval, evalLenient] using h
  | unary op x ihx =>
    intro v h
    simp only [Eval] at h
    rcases he : Eval x with ex | xv <;> rw [he] at h
    · exact Except.noConfusion h
    · have hx := ihx he
      simp only [evalLenient, hx]
      split_ifs at h ⊢ <;> simp_all
  | binary op x y ihx ihy =>
    intro v h
    simp only [Eval] at h
    rcases he : Eval x with ex | xv <;> rw [he] at h
    · exact Except.noConfusion h
    · rcases he2 : Eval y with ey | yv <;> rw [he2] at h
      · exact Except.noConfusion h
      · have hx := ihx he
        have hy := ihy he2
        simp only [evalLenient, lenApp, hx, hy]
        split_ifs at h ⊢ <;> simp_all

/-- Claim C1: whenever an input parses successfully in both modes and the tree
built by Parse evaluates without error to a value, the Literal returned by
EvalParse stores exactly that value (floating point is idealised as rationals,
so tolerance is exact equality). -/
theorem claim_C1_modes_agree (ts : List Tok) (t e : Expr) (v : ℚ)
    (hp : Parse ts = some t) (he : EvalParse ts = some e)
    (hv : Eval t = .ok v) : e = .num v := by
  rw [EvalParse_eq_map, hp] at he
  simp at he
  rw [← he, evalLenient_of_ok hv]

/-- Witness for claim C1 on the single-literal input 5. -/
theorem claim_C1_witness :
    (Expr.num 5 : Expr) = .num 5 :=
  claim_C1_modes_agree [Tok.tnum 5] (.num 5) (.num 5) 5 (by decide) (by decide)
    rfl

/-- Claim C7: a successful EvalParse always returns a Literal of size 1, whose
stored value is the lenient value the eager mode computes for the tree the
ordinary parser builds from the same input. -/
theorem claim_C7_evalparse_literal (ts : List Tok) (e : Expr)
    (h : EvalParse ts = some e) :
    ∃ v : ℚ, e = .num v ∧ Len e = 1 ∧
      ∀ t, Parse ts = some t → v = evalLenient t := by
  rw [EvalParse_eq_map] at h
  rcases hp : Parse ts with _ | t <;> rw [hp] at h
  · simp at h
  · simp at h
    subst h
    refine ⟨evalLenient t, rfl, rfl, fun t2 ht2 => ?_⟩
    injection ht2 with h3
    rw [h3]

/-- Witness for claim C7 on the single-literal input 5. -/
theorem claim_C7_witness :
    ∃ v : ℚ, (Expr.num 5 : Expr) = .num v ∧ Len (Expr.num 5) = 1 ∧
      ∀ t, Parse [Tok.tnum 5] = some t → v = evalLenient t :=
  claim_C7_evalparse_literal [Tok.tnum 5] (.num 5) (by decide)

/-- Amended claim C2: division by an operand evaluating to exactly zero makes
tree evaluation (the Parse mode) fail with a division-by-zero error, and
division by a nonzero value succeeds; the eager EvalParse mode, however,
discards evaluation errors, so it returns a Literal holding the lenient value
(a zero-divisor division contributing 0) with no error rather than reporting
division by zero. -/
theorem claim_C2_amended :
    (∀ x y : Expr, ∀ u : ℚ, Eval x = .ok u → Eval y = .ok 0 →
      Eval (.binary '/' x y) = .error .divByZero) ∧
    (∀ x y : Expr, ∀ u v : ℚ, Eval x = .ok u → Eval y = .ok v → v ≠ 0 →
      Eval (.binary '/' x y) = .ok (u / v)) ∧
    (∀ ts : List Tok, ∀ t : Expr, Parse ts = some t →
      Eval t = .error .divByZero →
      EvalParse ts = some (.num (evalLenient t))) := by
  refine ⟨?_, ?_, ?_⟩
  · intro x y u hx hy
    simp [Eval, hx, hy]
  · intro x y u v hx hy hv
    simp [Eval, hx, hy, hv]
  · intro ts t hp he
    rw [EvalParse_eq_map, hp]
    rfl

/-- Witness for the amended claim C2: 1/0 errors under tree evaluation, 6/2
evaluates to 3, and EvalParse returns the literal 0 with no error on the
divide-by-zero input. -/
theorem claim_C2_witness :
    Eval (.binary '/' (.num 1) (.num 0)) = .error .divByZero ∧
    Eval (.binary '/' (.num 6) (.num 2)) = .ok (6 / 2) ∧
    EvalParse (lexS [ '1', '/', '0' ]) =
      some (.num (evalLenient (.binary '/' (.num 1) (.num 0)))) := by
  refine ⟨claim_C2_amended.1 _ _ 1 rfl rfl,
    claim_C2_amended.2.1 _ _ 6 2 rfl rfl (by norm_num), ?_⟩
  exact claim_C2_amended.2.2 _ _ (by decide) (by norm_num [Eval])

/-- Number tokens of the input: each becomes exactly one literal node. -/
def isNumTok : Tok → Bool
  | .tnum _ => true
  | _ => false

/-- Operator tokens of the input: the four recognised operator symbols, the
ones the parser ever consumes as a unary sign or a binary operator. -/
def isOpTok : Tok → Bool
  | .tsym c => decide (1 ≤ priority c)
  | _ => false

/-- Weight of a token: its contribution to the node count of the parsed tree.
Parentheses, identifiers and unknown symbols contribute nothing. -/
def tokWeight (t : Tok) : Nat := if isNumTok t || isOpTok t then 1 else 0

/-- Weight of a token list. -/
def weight : List Tok → Nat
  | [] => 0
  | t :: ts => tokWeight t + weight ts

theorem weight_eq_counts (ts : List Tok) :
    weight ts = ts.countP isNumTok + ts.countP isOpTok := by
  induction ts with
  | nil => rfl
  | cons t rest ih =>
    cases t with
    | tnum v => simp [weight, tokWeight, isNumTok, isOpTok, List.countP_cons, ih]; omega
    | tident => simp [weight, tokWeight, isNumTok, isOpTok, List.countP_cons, ih]
    | tsym c =>
      by_cases hc : 1 ≤ priority c <;>
        simp [weight, tokWeight, isNumTok, isOpTok, List.countP_cons, hc, ih] <;>
        omega

/-- Every successful parse consumes tokens whose weight is exactly the node
count of the expression it builds: each number token becomes one literal, each
consumed operator token becomes one unary or binary node, and parentheses
add nothing. -/
theorem weight_all : ∀ f : Nat,
    (∀ ts e rem, parsePrimary f ts = some (e, rem) →
      Len e + weight rem = weight ts) ∧
    (∀ ts e rem, parseUnary f ts = some (e, rem) →
      Len e + weight rem = weight ts) ∧
    (∀ ts prio0 e rem, 1 ≤ prio0 → parseBinary f ts prio0 = some (e, rem) →
      Len e + weight rem = weight ts) ∧
    (∀ prio prio0 left ts e rem, 1 ≤ prio0 →
      parseOuter f prio prio0 left ts = some (e, rem) →
      Len e + weight rem = Len left + weight ts) ∧
    (∀ prio left ts e rem, 1 ≤ prio →
      parseInner f prio left ts = some (e, rem) →
      Len e + weight rem = Len left + weight ts) := by
  intro f
  induction f with
  | zero =>
    exact ⟨fun ts e rem h => Option.noConfusion h,
      fun ts e rem h => Option.noConfusion h,
      fun ts prio0 e rem h0 h => Option.noConfusion h,
      fun prio prio0 left ts e rem h0 h => Option.noConfusion h,
      fun prio left ts e rem h0 h => Option.noConfusion h⟩
  | succ f ih =>
    obtain ⟨ihP, ihU, ihB, ihO, ihI⟩ := ih
    refine ⟨?_, ?_, ?_, ?_, ?_⟩
    · intro ts e rem h
      cases ts with
      | nil => exact Option.noConfusion h
      | cons t rest =>
        cases t with
        | tnum v =>
          simp only [parsePrimary] at h
          injection h with h2
          injection h2 with h3 h4
          subst h3
          subst h4
          simp [Len, weight, tokWeight, isNumTok]
        | tident => exact Option.noConfusion h
        | tsym c =>
          simp only [parsePrimary] at h
          by_cases hc : c = '('
          · subst hc
            rw [if_pos rfl] at h
            rcases hpb : parseBinary f rest 1 with _ | ⟨e1, ts1⟩ <;>
              rw [hpb] at h
            · exact Option.noConfusion h
            · have hb := ihB rest 1 e1 ts1 (le_refl 1) hpb
              cases ts1 with
              | nil => exact Option.noConfusion h
              | cons t2 ts2 =>
                cases t2 with
                | tnum w => exact Option.noConfusion h
                | tident => exact Option.noConfusion h
                | tsym c2 =>
                  dsimp only at h
                  by_cases h2 : c2 = ')'
                  · subst h2
                    rw [if_pos rfl] at h
                    injection h with h3
                    injection h3 with h4 h5
                    subst h4
                    subst h5
                    have hw1 : tokWeight (Tok.tsym ')') = 0 := by decide
                    have hw2 : tokWeight (Tok.tsym '(') = 0 := by decide
                    simp only [weight, hw1, hw2] at hb ⊢
                    omega
                  · rw [if_neg h2] at h
                    exact Option.noConfusion h
          · rw [if_neg hc] at h
            exact Option.noConfusion h
    · intro ts e rem h
      cases ts with
      | nil => exact ihP [] e rem h
      | cons t rest =>
        cases t with
        | tnum v => exact ihP _ e rem h
        | tident => exact ihP _ e rem h
        | tsym c =>
          simp only [parseUnary] at h
          by_cases hc : c = '+' ∨ c = '-'
          · rw [if_pos hc] at h
            rcases hpu : parseUnary f rest with _ | ⟨e1, ts1⟩ <;> rw [hpu] at h
            · exact Option.noConfusion h
            · injection h with h2
              injection h2 with h3 h4
              subst h3
              subst h4
              have hu := ihU rest e1 ts1 hpu
              have hop : isOpTok (Tok.tsym c) = true := by
                rcases hc with h1 | h1 <;> subst h1 <;> decide
              have hwc : tokWeight (Tok.tsym c) = 1 := by
                simp [tokWeight, hop]
              simp only [Len, weight, hwc]
              omega
          · rw [if_neg hc] at h
            exact ihP _ e rem h
    · intro ts prio0 e rem h0 h
      simp only [parseBinary] at h
      rcases hpu : parseUnary f ts with _ | ⟨left, ts1⟩ <;> rw [hpu] at h
      · exact Option.noConfusion h
      · have hu := ihU ts left ts1 hpu
        have ho := ihO (priorityT ts1.head?) prio0 left ts1 e rem h0 h
        omega
    · intro prio prio0 left ts e rem h0 h
      simp only [parseOuter] at h
      by_cases hle : prio0 ≤ prio
      · rw [if_pos hle] at h
        rcases hpi : parseInner f prio left ts with _ | ⟨left1, ts1⟩ <;>
          rw [hpi] at h
        · exact Option.noConfusion h
        · have hi := ihI prio left ts left1 ts1 (le_trans h0 hle) hpi
          have ho := ihO (prio - 1) prio0 left1 ts1 e rem h0 h
          omega
      · rw [if_neg hle] at h
        injection h with h2
        injection h2 with h3 h4
        subst h3
        subst h4
        omega
    · intro prio left ts e rem h0 h
      cases ts with
      | nil =>
        simp only [parseInner] at h
        injection h with h2
        injection h2 with h3 h4
        subst h3
        subst h4
        omega
      | cons t rest =>
        cases t with
        | tnum v =>
          simp only [parseInner] at h
          injection h with h2
          injection h2 with h3 h4
          subst h3
          subst h4
          omega
        | tident =>
          simp only [parseInner] at h
          injection h with h2
          injection h2 with h3 h4
          subst h3
          subst h4
          omega
        | tsym op =>
          simp only [parseInner] at h
          by_cases hp : priority op = prio
          · rw [if_pos hp] at h
            rcases hpb : parseBinary f rest (prio + 1) with _ | ⟨rt, ts1⟩ <;>
              rw [hpb] at h
            · exact Option.noConfusion h
            · have hb := ihB rest (prio + 1) rt ts1 (by omega) hpb
              have hi := ihI prio (.binary op left rt) ts1 e rem h0 h
              have hop : isOpTok (Tok.tsym op) = true := by
                simp only [isOpTok]
                rw [hp]
                simpa using h0
              have hwc : tokWeight (Tok.tsym op) = 1 := by
                simp [tokWeight, hop]
              simp only [Len] at hi
              simp only [weight, hwc]
              omega
          · rw [if_neg hp] at h
            injection h with h2
            injection h2 with h3 h4
            subst h3
            subst h4
            omega

/-- Claim C6: if a token stream parses successfully, the size (Len) of the
returned expression is exactly the number of numeric literal tokens plus the
number of operator tokens (unary signs and binary operators together) of the
input. -/
theorem claim_C6_len (ts : List Tok) (t : Expr) (h : Parse ts = some t) :
    Len t = ts.countP isNumTok + ts.countP isOpTok := by
  simp only [Parse, parseExpr] at h
  rcases hp : parseBinary (parseFuel ts) ts 1 with _ | ⟨e, rem⟩ <;> rw [hp] at h
  · exact Option.noConfusion h
  · cases rem with
    | nil =>
      dsimp only at h
      injection h with h2
      subst h2
      have hw := (weight_all (parseFuel ts)).2.2.1 ts 1 e [] (le_refl 1) hp
      rw [← weight_eq_counts]
      simpa [weight] using hw
    | cons t2 r2 => exact Option.noConfusion h

/-- Witness for claim C6 on the input 2*1+2: three literals and two operators
give size five. -/
theorem claim_C6_witness :
    Len (.binary '+' (.binary '*' (.num 2) (.num 1)) (.num 2)) =
      (lexS [ '2', '*', '1', '+', '2' ]).countP isNumTok +
        (lexS [ '2', '*', '1', '+', '2' ]).countP isOpTok :=
  claim_C6_len _ _ (by decide)

theorem dropWhile_length_le (p : Char → Bool) (l : List Char) :
    (l.dropWhile p).length ≤ l.length := by
  induction l with
  | nil => simp
  | cons a l ih =>
    rw [List.dropWhile_cons]
    split
    · exact le_trans ih (by simp)
    · simp

theorem identStart_cont {c : Char} (h : isIdentStart c = true) :
    isIdentCont c = true := by
  simp only [isIdentStart, Bool.or_eq_true] at h
  rcases h with h | h <;> simp [isIdentCont, h]

theorem lexChars_nil (f : Nat) : lexChars f [] = [] := by
  cases f <;> rfl

/-- One definitional unfolding step of the lexer at nonzero fuel. -/
theorem lexChars_succ (f : Nat) (c : Char) (cs : List Char) :
    lexChars (f + 1) (c :: cs) =
      if isWSChar c then lexChars f cs
      else if c.isDigit then
        match (c :: cs).dropWhile Char.isDigit with
        | d :: r2 =>
          if d = '.' then
            Tok.tnum ((digitsVal ((c :: cs).takeWhile Char.isDigit) : ℚ) +
                fracVal (r2.takeWhile Char.isDigit)) ::
              lexChars f (r2.dropWhile Char.isDigit)
          else
            Tok.tnum (digitsVal ((c :: cs).takeWhile Char.isDigit)) ::
              lexChars f (d :: r2)
        | [] => Tok.tnum (digitsVal ((c :: cs).takeWhile Char.isDigit)) ::
            lexChars f []
      else if isIdentStart c then
        Tok.tident :: lexChars f ((c :: cs).dropWhile isIdentCont)
      else Tok.tsym c :: lexChars f cs := rfl

/-- Fuel irrelevance for the lexer: any fuel above the input length gives the
canonical result. -/
theorem lexChars_stable_aux : ∀ n f cs, f ≤ n → cs.length < f →
    lexChars f cs = lexS cs := by
  intro n
  induction n with
  | zero => intro f cs hf hc; omega
  | succ n ih =>
    intro f cs hf hc
    match f, cs with
    | g + 1, [] => rfl
    | g + 1, c :: cs =>
      simp only [List.length_cons] at hc
      have hg : g ≤ n := by omega
      have hcg : cs.length < g := by omega
      rw [show lexS (c :: cs) = lexChars (cs.length + 1 + 1) (c :: cs) from rfl]
      rw [lexChars_succ, lexChars_succ]
      by_cases hw : isWSChar c
      · simp only [if_pos hw]
        rw [ih g cs hg hcg, ih (cs.length + 1) cs (by omega) (by omega)]
      · simp only [if_neg hw]
        by_cases hd : c.isDigit
        · simp only [if_pos hd]
          have hdrop : (c :: cs).dropWhile Char.isDigit = cs.dropWhile Char.isDigit :=
            List.dropWhile_cons_of_pos hd
          rcases hm : (c :: cs).dropWhile Char.isDigit with _ | ⟨d, r2⟩
          · simp only [lexChars_nil]
          · have hlen : r2.length < cs.length := by
              have h1 : (d :: r2).length ≤ cs.length := by
                rw [← hm, hdrop]
                exact dropWhile_length_le _ _
              simp only [List.length_cons] at h1
              omega
            by_cases hdot : d = '.'
            · simp only [if_pos hdot]
              have hl2 : (r2.dropWhile Char.isDigit).length ≤ r2.length :=
                dropWhile_length_le _ _
              rw [ih g _ hg (by omega), ih (cs.length + 1) _ (by omega) (by omega)]
            · simp only [if_neg hdot]
              rw [ih g _ hg (by simp only [List.length_cons]; omega),
                ih (cs.length + 1) _ (by omega)
                  (by simp only [List.length_cons]; omega)]
        · simp only [if_neg hd]
          by_cases hi : isIdentStart c
          · simp only [if_pos hi]
            have hlen : ((c :: cs).dropWhile isIdentCont).length ≤ cs.length := by
              rw [List.dropWhile_cons_of_pos (identStart_cont hi)]
              exact dropWhile_length_le _ _
            rw [ih g _ hg (by omega), ih (cs.length + 1) _ (by omega) (by omega)]
          · simp only [if_neg hi]
            rw [ih g cs hg hcg, ih (cs.length + 1) cs (by omega) (by omega)]

theorem lexChars_stable (f : Nat) (cs : List Char) (h : cs.length < f) :
    lexChars f cs = lexS cs :=
  lexChars_stable_aux f f cs (le_refl f) h

/-- One fuel-free unfolding step of the lexer. -/
theorem lexS_cons (c : Char) (cs : List Char) :
    lexS (c :: cs) =
      if isWSChar c then lexS cs
      else if c.isDigit then
        match (c :: cs).dropWhile Char.isDigit with
        | d :: r2 =>
          if d = '.' then
            Tok.tnum ((digitsVal ((c :: cs).takeWhile Char.isDigit) : ℚ) +
                fracVal (r2.takeWhile Char.isDigit)) ::
              lexS (r2.dropWhile Char.isDigit)
          else
            Tok.tnum (digitsVal ((c :: cs).takeWhile Char.isDigit)) ::
              lexS (d :: r2)
        | [] => [Tok.tnum (digitsVal ((c :: cs).takeWhile Char.isDigit))]
      else if isIdentStart c then
        Tok.tident :: lexS ((c :: cs).dropWhile isIdentCont)
      else Tok.tsym c :: lexS cs := by
  rw [show lexS (c :: cs) = lexChars (cs.length + 1 + 1) (c :: cs) from rfl]
  rw [lexChars_succ]
  by_cases hw : isWSChar c
  · simp only [if_pos hw]
    rfl
  · simp only [if_neg hw]
    by_cases hd : c.isDigit
    · simp only [if_pos hd]
      have hdrop : (c :: cs).dropWhile Char.isDigit = cs.dropWhile Char.isDigit :=
        List.dropWhile_cons_of_pos hd
      rcases hm : (c :: cs).dropWhile Char.isDigit with _ | ⟨d, r2⟩
      · simp only [lexChars_nil]
      · have hlen : r2.length < cs.length := by
          have h1 : (d :: r2).length ≤ cs.length := by
            rw [← hm, hdrop]
            exact dropWhile_length_le _ _
          simp only [List.length_cons] at h1
          omega
        by_cases hdot : d = '.'
        · simp only [if_pos hdot]
          rw [lexChars_stable (cs.length + 1) _
            (lt_of_le_of_lt (dropWhile_length_le _ _) (by omega))]
        · simp only [if_neg hdot]
          rw [lexChars_stable (cs.length + 1) _
            (by simp only [List.length_cons]; omega)]
    · simp only [if_neg hd]
      by_cases hi : isIdentStart c
      · simp only [if_pos hi]
        have hlen : ((c :: cs).dropWhile isIdentCont).length ≤ cs.length := by
          rw [List.dropWhile_cons_of_pos (identStart_cont hi)]
          exact dropWhile_length_le _ _
        rw [lexChars_stable (cs.length + 1) _ (by omega)]
      · simp only [if_neg hi]
        rfl

theorem takeWhile_append_last (p : Char → Bool) (l : List Char) (k : Char)
    (hk : p k = false) : (l ++ [k]).takeWhile p = l.takeWhile p := by
  induction l with
  | nil => simp [List.takeWhile_cons, hk]
  | cons a l ih =>
    simp only [List.cons_append, List.takeWhile_cons]
    split
    · rw [ih]
    · rfl

theorem dropWhile_append_last (p : Char → Bool) (l : List Char) (k : Char)
    (hk : p k = false) : (l ++ [k]).dropWhile p = l.dropWhile p ++ [k] := by
  induction l with
  | nil => simp [List.dropWhile_cons, hk]
  | cons a l ih =>
    simp only [List.cons_append, List.dropWhile_cons]
    split
    · rw [ih]
    · rfl

/-- Appending a closing parenthesis to any character list appends exactly one
closing-parenthesis symbol token to its lexing: a closing parenthesis never
extends a number, identifier or whitespace run. -/
theorem lexS_append_rparen_aux : ∀ n cs, cs.length ≤ n →
    lexS (cs ++ [ ')' ]) = lexS cs ++ [Tok.tsym ')'] := by
  intro n
  induction n with
  | zero =>
    intro cs h
    have hnil : cs = [] := List.eq_nil_of_length_eq_zero (by omega)
    subst hnil
    decide
  | succ n ih =>
    intro cs h
    match cs with
    | [] => decide
    | c :: cs =>
      simp only [List.length_cons] at h
      rw [List.cons_append, lexS_cons, lexS_cons c cs]
      by_cases hw : isWSChar c
      · simp only [if_pos hw]
        exact ih cs (by omega)
      · simp only [if_neg hw]
        by_cases hd : c.isDigit
        · simp only [if_pos hd]
          rw [← List.cons_append]
          have hdw : ((c :: cs) ++ [ ')' ]).dropWhile Char.isDigit
              = (c :: cs).dropWhile Char.isDigit ++ [ ')' ] :=
            dropWhile_append_last _ _ _ (by decide)
          have htw : ((c :: cs) ++ [ ')' ]).takeWhile Char.isDigit
              = (c :: cs).takeWhile Char.isDigit :=
            takeWhile_append_last _ _ _ (by decide)
          rw [hdw, htw]
          have hdrop : (c :: cs).dropWhile Char.isDigit = cs.dropWhile Char.isDigit :=
            List.dropWhile_cons_of_pos hd
          rcases hm : (c :: cs).dropWhile Char.isDigit with _ | ⟨d, r2⟩
          · simp only [List.nil_append]
            rw [if_neg (by decide : ¬( ')' : Char) = '.')]
            rw [show lexS [ ')' ] = [Tok.tsym ')'] from by decide]
            rfl
          · have hlen : r2.length < cs.length := by
              have h1 : (d :: r2).length ≤ cs.length := by
                rw [← hm, hdrop]
                exact dropWhile_length_le _ _
              simp only [List.length_cons] at h1
              omega
            simp only [List.cons_append]
            by_cases hdot : d = '.'
            · simp only [if_pos hdot]
              have htw2 : (r2 ++ [ ')' ]).takeWhile Char.isDigit
                  = r2.takeWhile Char.isDigit :=
                takeWhile_append_last _ _ _ (by decide)
              have hdw2 : (r2 ++ [ ')' ]).dropWhile Char.isDigit
                  = r2.dropWhile Char.isDigit ++ [ ')' ] :=
                dropWhile_append_last _ _ _ (by decide)
              rw [htw2, hdw2]
              rw [ih (r2.dropWhile Char.isDigit)
                (le_trans (dropWhile_length_le _ _) (by omega))]
              rfl
            · simp only [if_neg hdot]
              rw [← List.cons_append, ih (d :: r2)
                (by simp only [List.length_cons]; omega)]
              rfl
        · simp only [if_neg hd]
          by_cases hi : isIdentStart c
          · simp only [if_pos hi]
            rw [← List.cons_append]
            have hdw : ((c :: cs) ++ [ ')' ]).dropWhile isIdentCont
                = (c :: cs).dropWhile isIdentCont ++ [ ')' ] :=
              dropWhile_append_last _ _ _ (by decide)
            rw [hdw]
            have hlen : ((c :: cs).dropWhile isIdentCont).length ≤ cs.length := by
              rw [List.dropWhile_cons_of_pos (identStart_cont hi)]
              exact dropWhile_length_le _ _
            rw [ih _ (by omega)]
            rfl
          · simp only [if_neg hi]
            rw [ih cs (by omega)]
            rfl

theorem lexS_append_rparen (cs : List Char) :
    lexS (cs ++ [ ')' ]) = lexS cs ++ [Tok.tsym ')'] :=
  lexS_append_rparen_aux cs.length cs (le_refl _)

theorem lexS_lparen_cons (cs : List Char) :
    lexS ( '(' :: cs) = Tok.tsym '(' :: lexS cs := by
  rw [lexS_cons]
  rw [if_neg (by decide : ¬isWSChar '(' = true)]
  rw [if_neg (by decide : ¬Char.isDigit '(' = true)]
  rw [if_neg (by decide : ¬isIdentStart '(' = true)]

/-- Fuel monotonicity: a successful parse stays the same under any larger
fuel, so the generous fuel chosen by Parse never changes a result. -/
theorem parse_fuel_mono : ∀ f f2 : Nat, f ≤ f2 →
    (∀ ts e rem, parsePrimary f ts = some (e, rem) →
      parsePrimary f2 ts = some (e, rem)) ∧
    (∀ ts e rem, parseUnary f ts = some (e, rem) →
      parseUnary f2 ts = some (e, rem)) ∧
    (∀ ts prio0 e rem, parseBinary f ts prio0 = some (e, rem) →
      parseBinary f2 ts prio0 = some (e, rem)) ∧
    (∀ prio prio0 left ts e rem,
      parseOuter f prio prio0 left ts = some (e, rem) →
      parseOuter f2 prio prio0 left ts = some (e, rem)) ∧
    (∀ prio left ts e rem, parseInner f prio left ts = some (e, rem) →
      parseInner f2 prio left ts = some (e, rem)) := by
  intro f
  induction f with
  | zero =>
    intro f2 hf
    exact ⟨fun ts e rem h => Option.noConfusion h,
      fun ts e rem h => Option.noConfusion h,
      fun ts prio0 e rem h => Option.noConfusion h,
      fun prio prio0 left ts e rem h => Option.noConfusion h,
      fun prio left ts e rem h => Option.noConfusion h⟩
  | succ f ih =>
    intro f2 hf
    match f2, hf with
    | f2 + 1, hf =>
      obtain ⟨ihP, ihU, ihB, ihO, ihI⟩ := ih f2 (by omega)
      refine ⟨?_, ?_, ?_, ?_, ?_⟩
      · intro ts e rem h
        cases ts with
        | nil => exact Option.noConfusion h
        | cons t rest =>
          cases t with
          | tnum v => exact h
          | tident => exact Option.noConfusion h
          | tsym c =>
            simp only [parsePrimary] at h ⊢
            by_cases hc : c = '('
            · rw [if_pos hc] at h ⊢
              rcases hpb : parseBinary f rest 1 with _ | ⟨e1, ts1⟩ <;>
                rw [hpb] at h
              · exact Option.noConfusion h
              · rw [ihB rest 1 e1 ts1 hpb]
                exact h
            · rw [if_neg hc] at h
              exact Option.noConfusion h
      · intro ts e rem h
        cases ts with
        | nil => exact ihP [] e rem h
        | cons t rest =>
          cases t with
          | tnum v => exact ihP _ e rem h
          | tident => exact ihP _ e rem h
          | tsym c =>
            simp only [parseUnary] at h ⊢
            by_cases hc : c = '+' ∨ c = '-'
            · rw [if_pos hc] at h ⊢
              rcases hpu : parseUnary f rest with _ | ⟨e1, ts1⟩ <;>
                rw [hpu] at h
              · exact Option.noConfusion h
              · rw [ihU rest e1 ts1 hpu]
                exact h
            · rw [if_neg hc] at h ⊢
              exact ihP _ e rem h
      · intro ts prio0 e rem h
        simp only [parseBinary] at h ⊢
        rcases hpu : parseUnary f ts with _ | ⟨left, ts1⟩ <;> rw [hpu] at h
        · exact Option.noConfusion h
        · rw [ihU ts left ts1 hpu]
          exact ihO _ prio0 left ts1 e rem h
      · intro prio prio0 left ts e rem h
        simp only [parseOuter] at h ⊢
        by_cases hle : prio0 ≤ prio
        · rw [if_pos hle] at h ⊢
          rcases hpi : parseInner f prio left ts with _ | ⟨left1, ts1⟩ <;>
            rw [hpi] at h
          · exact Option.noConfusion h
          · rw [ihI prio left ts left1 ts1 hpi]
            exact ihO _ prio0 left1 ts1 e rem h
        · rw [if_neg hle] at h ⊢
          exact h
      · intro prio left ts e rem h
        cases ts with
        | nil => exact h
        | cons t rest =>
          cases t with
          | tnum v => exact h
          | tident => exact h
          | tsym op =>
            simp only [parseInner] at h ⊢
            by_cases hp : priority op = prio
            · rw [if_pos hp] at h ⊢
              rcases hpb : parseBinary f rest (prio + 1) with _ | ⟨rt, ts1⟩ <;>
                rw [hpb] at h
              · exact Option.noConfusion h
              · rw [ihB rest (prio + 1) rt ts1 hpb]
                exact ihI prio _ ts1 e rem h
            · rw [if_neg hp] at h ⊢
              exact h

theorem priorityT_append_head (l suf : List Tok)
    (hsuf : priorityT suf.head? = 0) :
    priorityT ((l ++ suf).head?) = priorityT l.head? := by
  cases l with
  | nil => simpa using hsuf
  | cons t r => rfl

/-- Frame property: appending a suffix whose first token has priority zero (a
closing parenthesis, or nothing) to the input of a successful parse leaves the
parse result unchanged and the suffix unconsumed.  The parser decides every
step from the current lookahead, and on a successful run the only lookaheads
taken at or beyond the append point see priority zero either way. -/
theorem parse_frame (suf : List Tok) (hsuf : priorityT suf.head? = 0) :
    ∀ f : Nat,
    (∀ ts e rem, parsePrimary f ts = some (e, rem) →
      parsePrimary f (ts ++ suf) = some (e, rem ++ suf)) ∧
    (∀ ts e rem, parseUnary f ts = some (e, rem) →
      parseUnary f (ts ++ suf) = some (e, rem ++ suf)) ∧
    (∀ ts prio0 e rem, 1 ≤ prio0 → parseBinary f ts prio0 = some (e, rem) →
      parseBinary f (ts ++ suf) prio0 = some (e, rem ++ suf)) ∧
    (∀ prio prio0 left ts e rem, 1 ≤ prio0 →
      parseOuter f prio prio0 left ts = some (e, rem) →
      parseOuter f prio prio0 left (ts ++ suf) = some (e, rem ++ suf)) ∧
    (∀ prio left ts e rem, 1 ≤ prio →
      parseInner f prio left ts = some (e, rem) →
      parseInner f prio left (ts ++ suf) = some (e, rem ++ suf)) := by
  intro f
  induction f with
  | zero =>
    exact ⟨fun ts e rem h => Option.noConfusion h,
      fun ts e rem h => Option.noConfusion h,
      fun ts prio0 e rem h0 h => Option.noConfusion h,
      fun prio prio0 left ts e rem h0 h => Option.noConfusion h,
      fun prio left ts e rem h0 h => Option.noConfusion h⟩
  | succ f ih =>
    obtain ⟨ihP, ihU, ihB, ihO, ihI⟩ := ih
    refine ⟨?_, ?_, ?_, ?_, ?_⟩
    · intro ts e rem h
      cases ts with
      | nil => exact Option.noConfusion h
      | cons t rest =>
        cases t with
        | tnum v =>
          simp only [parsePrimary] at h
          injection h with h2
          injection h2 with h3 h4
          subst h3
          subst h4
          rfl
        | tident => exact Option.noConfusion h
        | tsym c =>
          simp only [parsePrimary] at h
          simp only [List.cons_append, parsePrimary]
          by_cases hc : c = '('
          · rw [if_pos hc] at h ⊢
            rcases hpb : parseBinary f rest 1 with _ | ⟨e1, ts1⟩ <;>
              rw [hpb] at h
            · exact Option.noConfusion h
            · rw [ihB rest 1 e1 ts1 (le_refl 1) hpb]
              cases ts1 with
              | nil => exact Option.noConfusion h
              | cons t2 ts2 =>
                cases t2 with
                | tnum w => exact Option.noConfusion h
                | tident => exact Option.noConfusion h
                | tsym c2 =>
                  simp only [List.cons_append]
                  dsimp only at h
                  by_cases h2 : c2 = ')'
                  · rw [if_pos h2] at h ⊢
                    injection h with h3
                    injection h3 with h4 h5
                    subst h4
                    subst h5
                    rfl
                  · rw [if_neg h2] at h
                    exact Option.noConfusion h
          · rw [if_neg hc] at h
            exact Option.noConfusion h
    · intro ts e rem h
      cases ts with
      | nil =>
        have hnone : parseUnary (f + 1) ([] : List Tok) = none := by
          cases f <;> rfl
        rw [hnone] at h
        exact Option.noConfusion h
      | cons t rest =>
        cases t with
        | tnum v => exact ihP _ e rem h
        | tident => exact ihP _ e rem h
        | tsym c =>
          simp only [parseUnary] at h
          simp only [List.cons_append, parseUnary]
          by_cases hc : c = '+' ∨ c = '-'
          · rw [if_pos hc] at h ⊢
            rcases hpu : parseUnary f rest with _ | ⟨e1, ts1⟩ <;> rw [hpu] at h
            · exact Option.noConfusion h
            · rw [ihU rest e1 ts1 hpu]
              injection h with h2
              injection h2 with h3 h4
              subst h3
              subst h4
              rfl
          · rw [if_neg hc] at h ⊢
            exact ihP _ e rem h
    · intro ts prio0 e rem h0 h
      simp only [parseBinary] at h ⊢
      rcases hpu : parseUnary f ts with _ | ⟨left, ts1⟩ <;> rw [hpu] at h
      · exact Option.noConfusion h
      · rw [ihU ts left ts1 hpu]
        dsimp only
        dsimp only at h
        rw [priorityT_append_head ts1 suf hsuf]
        exact ihO _ prio0 left ts1 e rem h0 h
    · intro prio prio0 left ts e rem h0 h
      simp only [parseOuter] at h ⊢
      by_cases hle : prio0 ≤ prio
      · rw [if_pos hle] at h ⊢
        rcases hpi : parseInner f prio left ts with _ | ⟨left1, ts1⟩ <;>
          rw [hpi] at h
        · exact Option.noConfusion h
        · rw [ihI prio left ts left1 ts1 (le_trans h0 hle) hpi]
          exact ihO _ prio0 left1 ts1 e rem h0 h
      · rw [if_neg hle] at h ⊢
        injection h with h2
        injection h2 with h3 h4
        subst h3
        subst h4
        rfl
    · intro prio left ts e rem h0 h
      cases ts with
      | nil =>
        simp only [parseInner] at h
        injection h with h2
        injection h2 with h3 h4
        subst h3
        subst h4
        cases suf with
        | nil => rfl
        | cons t ss =>
          cases t with
          | tnum v => rfl
          | tident => rfl
          | tsym c =>
            have hc : priority c = 0 := by simpa [priorityT] using hsuf
            simp only [List.nil_append, parseInner]
            rw [if_neg (by omega)]
      | cons t rest =>
        cases t with
        | tnum v =>
          simp only [parseInner] at h
          injection h with h2
          injection h2 with h3 h4
          subst h3
          subst h4
          rfl
        | tident =>
          simp only [parseInner] at h
          injection h with h2
          injection h2 with h3 h4
          subst h3
          subst h4
          rfl
        | tsym op =>
          simp only [parseInner] at h
          simp only [List.cons_append, parseInner]
          by_cases hp : priority op = prio
          · rw [if_pos hp] at h ⊢
            rcases hpb : parseBinary f rest (prio + 1) with _ | ⟨rt, ts1⟩ <;>
              rw [hpb] at h
            · exact Option.noConfusion h
            · rw [ihB rest (prio + 1) rt ts1 (by omega) hpb]
              exact ihI prio _ ts1 e rem h0 h
          · rw [if_neg hp] at h ⊢
            injection h with h2
            injection h2 with h3 h4
            subst h3
            subst h4
            rfl

/-- Wrapping a successfully parsed token stream in parentheses returns exactly
the same tree: the parenthesis branch of parsePrimary returns the inner
expression without adding any node. -/
theorem Parse_paren_tokens (ts : List Tok) (t : Expr) (h : Parse ts = some t) :
    Parse (Tok.tsym '(' :: (ts ++ [Tok.tsym ')'])) = some t := by
  have hpb : parseBinary (parseFuel ts) ts 1 = some (t, []) := by
    simp only [Parse, parseExpr] at h
    rcases hp : parseBinary (parseFuel ts) ts 1 with _ | ⟨e, rem⟩ <;> rw [hp] at h
    · exact Option.noConfusion h
    · cases rem with
      | nil =>
        dsimp only at h
        injection h with h2
        subst h2
        rfl
      | cons a b => exact Option.noConfusion h
  have hframe := ((parse_frame [Tok.tsym ')'] (by decide)
      (parseFuel ts)).2.2.1) ts 1 t [] (le_refl 1) hpb
  simp only [List.nil_append] at hframe
  have hmono := (parse_fuel_mono (parseFuel ts) (5 * ts.length + 17)
      (by simp only [parseFuel]; omega)).2.2.1
    (ts ++ [Tok.tsym ')']) 1 t [Tok.tsym ')'] hframe
  simp only [Parse, parseExpr]
  have hL : parseFuel (Tok.tsym '(' :: (ts ++ [Tok.tsym ')']))
      = 5 * ts.length + 20 := by
    simp only [parseFuel, List.length_cons, List.length_append, List.length_nil]
    omega
  rw [hL]
  rw [show 5 * ts.length + 20 = (5 * ts.length + 19) + 1 by omega]
  simp only [parseBinary]
  rw [show 5 * ts.length + 19 = (5 * ts.length + 18) + 1 by omega]
  simp only [parseUnary]
  rw [if_neg (by decide : ¬(( '(' : Char) = '+' ∨ ( '(' : Char) = '-'))]
  rw [show 5 * ts.length + 18 = (5 * ts.length + 17) + 1 by omega]
  simp only [parsePrimary]
  simp only [if_true]
  rw [hmono]
  dsimp only
  rw [if_pos rfl]
  simp only [parseOuter]
  rw [if_neg (by decide : ¬(1 ≤ priorityT (([] : List Tok).head?)))]

/-- Claim C10: parentheses are structurally transparent.  For every character
list that parses successfully, wrapping it in an opening and a closing
parenthesis parses to exactly the same tree, so in particular the sizes and
the evaluations of the two results coincide. -/
theorem claim_C10_paren_transparent (s : List Char) (t : Expr)
    (h : Parse (lexS s) = some t) :
    Parse (lexS ( '(' :: (s ++ [ ')' ]))) = some t := by
  rw [lexS_lparen_cons, lexS_append_rparen]
  exact Parse_paren_tokens (lexS s) t h

/-- Witness for claim C10 on the input 1+2. -/
theorem claim_C10_witness :
    Parse (lexS ( '(' :: ([ '1', '+', '2' ] ++ [ ')' ]))) =
      some (.binary '+' (.num 1) (.num 2)) :=
  claim_C10_paren_transparent [ '1', '+', '2' ]
    (.binary '+' (.num 1) (.num 2)) (by decide)

theorem ws_not_digit {c : Char} (h : isWSChar c = true) : c.isDigit = false := by
  simp only [isWSChar, Bool.or_eq_true, decide_eq_true_eq] at h
  rcases h with ((h | h) | h) | h <;> subst h <;> decide

theorem digit_not_ws {c : Char} (h : c.isDigit = true) : isWSChar c = false := by
  cases hw : isWSChar c
  · rfl
  · rw [ws_not_digit hw] at h
    exact Bool.noConfusion h

theorem digitChar_isDigit (n : Nat) : (digitChar n).isDigit = true := by
  unfold digitChar
  split <;> decide

theorem digitChar_val {n : Nat} (h : n < 10) : (digitChar n).toNat - 48 = n := by
  interval_cases n <;> decide

theorem natDigitsF_digits : ∀ f n c, c ∈ natDigitsF f n → c.isDigit = true := by
  intro f
  induction f with
  | zero =>
    intro n c hc
    simp [natDigitsF] at hc
  | succ f ih =>
    intro n c hc
    simp only [natDigitsF] at hc
    split at hc
    · simp only [List.mem_singleton] at hc
      subst hc
      exact digitChar_isDigit n
    · rcases List.mem_append.mp hc with h | h
      · exact ih _ _ h
      · simp only [List.mem_singleton] at h
        subst h
        exact digitChar_isDigit _

theorem natDigitsF_ne_nil (f n : Nat) : natDigitsF (f + 1) n ≠ [] := by
  simp only [natDigitsF]
  split <;> simp

theorem digitsVal_append_one (l : List Char) (c : Char) :
    digitsVal (l ++ [c]) = 10 * digitsVal l + (c.toNat - 48) := by
  simp [digitsVal, List.foldl_append]

theorem natDigitsF_val : ∀ f n, n < f → digitsVal (natDigitsF f n) = n := by
  intro f
  induction f with
  | zero =>
    intro n h
    exact absurd h (Nat.not_lt_zero n)
  | succ f ih =>
    intro n h
    simp only [natDigitsF]
    split
    · rename_i h10
      simp only [digitsVal, List.foldl]
      rw [Nat.mul_zero, Nat.zero_add]
      exact digitChar_val h10
    · rename_i h10
      push_neg at h10
      rw [digitsVal_append_one]
      have hdiv : n / 10 < n := Nat.div_lt_self (by omega) (by omega)
      rw [ih (n / 10) (by omega), digitChar_val (Nat.mod_lt n (by omega))]
      omega

theorem takeWhile_append_all (p : Char → Bool) :
    ∀ (l r : List Char), (∀ c ∈ l, p c = true) →
      (l ++ r).takeWhile p = l ++ r.takeWhile p
  | [], r, _ => by simp
  | a :: l, r, h => by
    have ha := h a (List.mem_cons_self a l)
    simp only [List.cons_append, List.takeWhile_cons, ha, if_true]
    rw [takeWhile_append_all p l r (fun c hc => h c (List.mem_cons_of_mem a hc))]

theorem dropWhile_append_all (p : Char → Bool) :
    ∀ (l r : List Char), (∀ c ∈ l, p c = true) →
      (l ++ r).dropWhile p = r.dropWhile p
  | [], r, _ => by simp
  | a :: l, r, h => by
    have ha := h a (List.mem_cons_self a l)
    simp only [List.cons_append, List.dropWhile_cons, ha, if_true]
    exact dropWhile_append_all p l r (fun c hc => h c (List.mem_cons_of_mem a hc))

theorem sep_cases {rest : List Char}
    (h : rest = [] ∨ rest.head? = some ' ') :
    rest.takeWhile Char.isDigit = [] ∧ rest.dropWhile Char.isDigit = rest := by
  rcases h with h | h
  · subst h
    simp
  · cases rest with
    | nil => simp
    | cons a r =>
      simp only [List.head?_cons, Option.some.injEq] at h
      subst h
      have hsp : (( ' ' : Char).isDigit) = false := by decide
      constructor
      · rw [List.takeWhile_cons, hsp]
        rfl
      · rw [List.dropWhile_cons, hsp]
        rfl

/-- Lexing the two-decimal rendering of an exactly-two-decimal nonnegative
rational, followed by a separator (space or end of input), yields exactly the
number token holding that rational followed by the lexing of the remainder. -/
theorem lexS_fmt2_good (v : ℚ) (h0 : 0 ≤ v) (h1 : (v * 100).den = 1)
    (rest : List Char) (hsep : rest = [] ∨ rest.head? = some ' ') :
    lexS (fmt2 v ++ rest) = Tok.tnum v :: lexS rest := by
  have hv100 : ((v * 100).num : ℚ) = v * 100 := by
    rw [← Rat.num_div_den (v * 100), h1]
    norm_num
  have hnum0 : 0 ≤ (v * 100).num := Rat.num_nonneg.mpr (by positivity)
  simp only [fmt2, fmt2abs, if_neg (not_lt.mpr h0)]
  have hgen : ∀ n : Nat, (n : ℚ) = v * 100 →
      lexS ((natDigitsChars (n / 100) ++ '.' :: twoDigits (n % 100)) ++ rest)
        = Tok.tnum v :: lexS rest := by
    intro n hcast
    obtain ⟨d0, D', hD⟩ : ∃ d0 D', natDigitsChars (n / 100) = d0 :: D' := by
      rcases hE : natDigitsChars (n / 100) with _ | ⟨a, b⟩
      · rw [natDigitsChars] at hE
        exact absurd hE (natDigitsF_ne_nil _ _)
      · exact ⟨a, b, rfl⟩
    have hDdig : ∀ c ∈ d0 :: D', c.isDigit = true := by
      rw [← hD]
      intro c hc
      rw [natDigitsChars] at hc
      exact natDigitsF_digits _ _ c hc
    have h2d : ∀ c ∈ twoDigits (n % 100), c.isDigit = true := by
      intro c hc
      simp only [twoDigits, List.mem_cons, List.not_mem_nil, or_false] at hc
      rcases hc with h | h <;> subst h <;> exact digitChar_isDigit _
    have hsep2 := sep_cases hsep
    rw [hD]
    simp only [List.cons_append, List.append_assoc]
    rw [lexS_cons]
    have hd0 : d0.isDigit = true := hDdig d0 (List.mem_cons_self _ _)
    rw [if_neg (by simp [digit_not_ws hd0])]
    rw [if_pos hd0]
    have hlist : d0 :: (D' ++ ( '.' :: (twoDigits (n % 100) ++ rest)))
        = (d0 :: D') ++ ( '.' :: (twoDigits (n % 100) ++ rest)) := rfl
    have hdotd : (( '.' : Char).isDigit) = false := by decide
    have hdw : (d0 :: (D' ++ ( '.' :: (twoDigits (n % 100) ++ rest)))).dropWhile
        Char.isDigit = '.' :: (twoDigits (n % 100) ++ rest) := by
      rw [hlist, dropWhile_append_all _ _ _ hDdig, List.dropWhile_cons, hdotd]
      rfl
    have htw : (d0 :: (D' ++ ( '.' :: (twoDigits (n % 100) ++ rest)))).takeWhile
        Char.isDigit = d0 :: D' := by
      rw [hlist, takeWhile_append_all _ _ _ hDdig, List.takeWhile_cons, hdotd]
      simp
    rw [hdw]
    dsimp only
    rw [if_pos rfl]
    rw [htw]
    have htw2 : (twoDigits (n % 100) ++ rest).takeWhile Char.isDigit
        = twoDigits (n % 100) := by
      rw [takeWhile_append_all _ _ _ h2d, hsep2.1, List.append_nil]
    have hdw2 : (twoDigits (n % 100) ++ rest).dropWhile Char.isDigit = rest := by
      rw [dropWhile_append_all _ _ _ h2d, hsep2.2]
    rw [htw2, hdw2]
    have hvD : digitsVal (d0 :: D') = n / 100 := by
      rw [← hD, natDigitsChars]
      exact natDigitsF_val _ _ (by omega)
    have hv2 : digitsVal (twoDigits (n % 100)) = n % 100 := by
      simp only [twoDigits, digitsVal, List.foldl]
      rw [Nat.mul_zero, Nat.zero_add]
      rw [digitChar_val (by omega), digitChar_val (by omega)]
      omega
    rw [hvD]
    have hval : ((n / 100 : ℕ) : ℚ) + fracVal (twoDigits (n % 100)) = v := by
      rw [fracVal, hv2]
      simp only [twoDigits, List.length_cons, List.length_nil]
      rw [show ((10 : ℚ) ^ (0 + 1 + 1 : ℕ)) = 100 by norm_num]
      have hnm : 100 * (n / 100) + n % 100 = n := Nat.div_add_mod n 100
      have hq : (100 : ℚ) * ((n / 100 : ℕ) : ℚ) + ((n % 100 : ℕ) : ℚ)
          = (n : ℚ) := by
        exact_mod_cast congrArg (fun m : ℕ => (m : ℚ)) hnm
      field_simp
      linarith [hq, hcast]
    rw [hval]
  apply hgen
  have h2 : (((round (v * 100)).toNat : ℕ) : ℤ) = (v * 100).num := by
    rw [← hv100, round_intCast]
    exact Int.toNat_of_nonneg hnum0
  calc ((round (v * 100)).toNat : ℚ)
      = ((((round (v * 100)).toNat : ℕ) : ℤ) : ℚ) := by push_cast; ring
    _ = ((v * 100).num : ℚ) := by rw [h2]
    _ = v * 100 := hv100

/-- Number tokens carrying a nonnegative exactly-two-decimal value: the values
whose two-decimal rendering is lossless and lexes back to the same token. -/
def GoodTok : Tok → Prop
  | .tnum v => 0 ≤ v ∧ (v * 100).den = 1
  | _ => True

/-- Trees whose formatting lexes back to their in-order token sequence: all
literals are nonnegative exactly-two-decimal values, all unary operators are
signs, and all binary operators are among the four recognised ones. -/
def GoodTree : Expr → Prop
  | .num v => 0 ≤ v ∧ (v * 100).den = 1
  | .unary op x => (op = '+' ∨ op = '-') ∧ GoodTree x
  | .binary op x y => 1 ≤ priority op ∧ GoodTree x ∧ GoodTree y

/-- In-order token sequence of an expression tree: the tokens the parser
consumed to build it, parentheses excepted. -/
def inorderToks : Expr → List Tok
  | .num v => [Tok.tnum v]
  | .unary op x => Tok.tsym op :: inorderToks x
  | .binary op x y => inorderToks x ++ Tok.tsym op :: inorderToks y

/-- On parenthesis-free inputs a successful parse consumes exactly the
in-order token sequence of the tree it builds, and when all number tokens are
good the tree is good. -/
theorem parse_inorder : ∀ f : Nat,
    (∀ ts e rem, Tok.tsym '(' ∉ ts → parsePrimary f ts = some (e, rem) →
      inorderToks e ++ rem = ts ∧
        ((∀ tk ∈ ts, GoodTok tk) → GoodTree e)) ∧
    (∀ ts e rem, Tok.tsym '(' ∉ ts → parseUnary f ts = some (e, rem) →
      inorderToks e ++ rem = ts ∧
        ((∀ tk ∈ ts, GoodTok tk) → GoodTree e)) ∧
    (∀ ts prio0 e rem, Tok.tsym '(' ∉ ts → 1 ≤ prio0 →
      parseBinary f ts prio0 = some (e, rem) →
      inorderToks e ++ rem = ts ∧
        ((∀ tk ∈ ts, GoodTok tk) → GoodTree e)) ∧
    (∀ prio prio0 left ts e rem,
      Tok.tsym '(' ∉ inorderToks left ++ ts → 1 ≤ prio0 →
      parseOuter f prio prio0 left ts = some (e, rem) →
      inorderToks e ++ rem = inorderToks left ++ ts ∧
        ((∀ tk ∈ inorderToks left ++ ts, GoodTok tk) →
          GoodTree left → GoodTree e)) ∧
    (∀ prio left ts e rem,
      Tok.tsym '(' ∉ inorderToks left ++ ts → 1 ≤ prio →
      parseInner f prio left ts = some (e, rem) →
      inorderToks e ++ rem = inorderToks left ++ ts ∧
        ((∀ tk ∈ inorderToks left ++ ts, GoodTok tk) →
          GoodTree left → GoodTree e)) := by
  intro f
  induction f with
  | zero =>
    exact ⟨fun ts e rem hnp h => Option.noConfusion h,
      fun ts e rem hnp h => Option.noConfusion h,
      fun ts prio0 e rem hnp h0 h => Option.noConfusion h,
      fun prio prio0 left ts e rem hnp h0 h => Option.noConfusion h,
      fun prio left ts e rem hnp h0 h => Option.noConfusion h⟩
  | succ f ih =>
    obtain ⟨ihP, ihU, ihB, ihO, ihI⟩ := ih
    refine ⟨?_, ?_, ?_, ?_, ?_⟩
    · intro ts e rem hnp h
      cases ts with
      | nil => exact Option.noConfusion h
      | cons t rest =>
        cases t with
        | tnum v =>
          simp only [parsePrimary] at h
          injection h with h2
          injection h2 with h3 h4
          subst h3
          subst h4
          refine ⟨rfl, fun hg => ?_⟩
          exact hg (Tok.tnum v) (List.mem_cons_self _ _)
        | tident => exact Option.noConfusion h
        | tsym c =>
          simp only [parsePrimary] at h
          by_cases hc : c = '('
          · subst hc
            exact absurd (List.mem_cons_self _ _) hnp
          · rw [if_neg hc] at h
            exact Option.noConfusion h
    · intro ts e rem hnp h
      cases ts with
      | nil => exact ihP [] e rem hnp h
      | cons t rest =>
        cases t with
        | tnum v => exact ihP _ e rem hnp h
        | tident => exact ihP _ e rem hnp h
        | tsym c =>
          simp only [parseUnary] at h
          by_cases hc : c = '+' ∨ c = '-'
          · rw [if_pos hc] at h
            rcases hpu : parseUnary f rest with _ | ⟨e1, ts1⟩ <;> rw [hpu] at h
            · exact Option.noConfusion h
            · injection h with h2
              injection h2 with h3 h4
              subst h3
              subst h4
              have hnp1 : Tok.tsym '(' ∉ rest :=
                fun hm => hnp (List.mem_cons_of_mem _ hm)
              obtain ⟨hi1, hg1⟩ := ihU rest e1 ts1 hnp1 hpu
              constructor
              · simp only [inorderToks, List.cons_append, hi1]
              · intro hg
                exact ⟨hc, hg1 (fun tk htk => hg tk (List.mem_cons_of_mem _ htk))⟩
          · rw [if_neg hc] at h
            exact ihP _ e rem hnp h
    · intro ts prio0 e rem hnp h0 h
      simp only [parseBinary] at h
      rcases hpu : parseUnary f ts with _ | ⟨left, ts1⟩ <;> rw [hpu] at h
      · exact Option.noConfusion h
      · obtain ⟨hi1, hg1⟩ := ihU ts left ts1 hnp hpu
        have hnp1 : Tok.tsym '(' ∉ inorderToks left ++ ts1 := by
          rw [hi1]
          exact hnp
        obtain ⟨hi2, hg2⟩ := ihO _ prio0 left ts1 e rem hnp1 h0 h
        refine ⟨by rw [hi2, hi1], fun hg => ?_⟩
        refine hg2 ?_ (hg1 hg)
        rw [hi1]
        exact hg
    · intro prio prio0 left ts e rem hnp h0 h
      simp only [parseOuter] at h
      by_cases hle : prio0 ≤ prio
      · rw [if_pos hle] at h
        rcases hpi : parseInner f prio left ts with _ | ⟨left1, ts1⟩ <;>
          rw [hpi] at h
        · exact Option.noConfusion h
        · obtain ⟨hi1, hg1⟩ := ihI prio left ts left1 ts1 hnp
            (le_trans h0 hle) hpi
          have hnp1 : Tok.tsym '(' ∉ inorderToks left1 ++ ts1 := by
            rw [hi1]
            exact hnp
          obtain ⟨hi2, hg2⟩ := ihO _ prio0 left1 ts1 e rem hnp1 h0 h
          refine ⟨by rw [hi2, hi1], fun hg hgl => ?_⟩
          refine hg2 ?_ (hg1 hg hgl)
          rw [hi1]
          exact hg
      · rw [if_neg hle] at h
        injection h with h2
        injection h2 with h3 h4
        subst h3
        subst h4
        exact ⟨rfl, fun hg hgl => hgl⟩
    · intro prio left ts e rem hnp h0 h
      cases ts with
      | nil =>
        simp only [parseInner] at h
        injection h with h2
        injection h2 with h3 h4
        subst h3
        subst h4
        exact ⟨rfl, fun hg hgl => hgl⟩
      | cons t rest =>
        cases t with
        | tnum v =>
          simp only [parseInner] at h
          injection h with h2
          injection h2 with h3 h4
          subst h3
          subst h4
          exact ⟨rfl, fun hg hgl => hgl⟩
        | tident =>
          simp only [parseInner] at h
          injection h with h2
          injection h2 with h3 h4
          subst h3
          subst h4
          exact ⟨rfl, fun hg hgl => hgl⟩
        | tsym op =>
          simp only [parseInner] at h
          by_cases hp : priority op = prio
          · rw [if_pos hp] at h
            rcases hpb : parseBinary f rest (prio + 1) with _ | ⟨rt, ts1⟩ <;>
              rw [hpb] at h
            · exact Option.noConfusion h
            · have hnpr : Tok.tsym '(' ∉ rest := fun hm =>
                hnp (List.mem_append_right _ (List.mem_cons_of_mem _ hm))
              obtain ⟨hiB, hgB⟩ := ihB rest (prio + 1) rt ts1 hnpr (by omega) hpb
              have hEq : inorderToks (Expr.binary op left rt) ++ ts1
                  = inorderToks left ++ (Tok.tsym op :: rest) := by
                simp only [inorderToks, List.append_assoc, List.cons_append]
                rw [hiB]
              have hnp1 : Tok.tsym '(' ∉
                  inorderToks (Expr.binary op left rt) ++ ts1 := by
                rw [hEq]
                exact hnp
              obtain ⟨hi2, hg2⟩ := ihI prio _ ts1 e rem hnp1 h0 h
              refine ⟨by rw [hi2, hEq], fun hg hgl => ?_⟩
              refine hg2 ?_ ?_
              · rw [hEq]
                exact hg
              · refine ⟨by omega, hgl, hgB fun tk htk => ?_⟩
                exact hg tk
                  (List.mem_append_right _ (List.mem_cons_of_mem _ htk))
          · rw [if_neg hp] at h
            injection h with h2
            injection h2 with h3 h4
            subst h3
            subst h4
            exact ⟨rfl, fun hg hgl => hgl⟩

/-- Lexing the rendering of a good tree recovers exactly its in-order token
sequence: formatting prints the literals to two decimals and the operators in
order, with no parentheses. -/
theorem lexS_fmt : ∀ (e : Expr) (rest : List Char), GoodTree e →
    (rest = [] ∨ rest.head? = some ' ') →
    lexS (fmt e ++ rest) = inorderToks e ++ lexS rest := by
  intro e
  induction e with
  | num v =>
    intro rest hg hsep
    exact lexS_fmt2_good v hg.1 hg.2 rest hsep
  | unary op x ihx =>
    intro rest hg hsep
    obtain ⟨hop, hgx⟩ := hg
    simp only [fmt, inorderToks, List.cons_append]
    rcases hop with h | h <;> subst h <;>
      rw [lexS_cons, if_neg (by decide), if_neg (by decide),
        if_neg (by decide), ihx rest hgx hsep]
  | binary op x y ihx ihy =>
    intro rest hg hsep
    obtain ⟨hop, hgx, hgy⟩ := hg
    simp only [fmt, inorderToks]
    rw [List.append_assoc]
    simp only [List.cons_append]
    rw [ihx ( ' ' :: op :: ' ' :: (fmt y ++ rest)) hgx (Or.inr rfl)]
    rw [lexS_cons, if_pos (by decide : isWSChar ' ' = true)]
    have hop4 : op = '*' ∨ op = '/' ∨ op = '+' ∨ op = '-' := by
      by_contra hcon
      push_neg at hcon
      obtain ⟨h1, h2, h3, h4⟩ := hcon
      simp [priority, h1, h2, h3, h4] at hop
    rcases hop4 with h | h | h | h <;> subst h <;>
      rw [lexS_cons, if_neg (by decide), if_neg (by decide),
        if_neg (by decide), lexS_cons, if_pos (by decide : isWSChar ' ' = true),
        ihy rest hgy hsep] <;>
      simp [List.append_assoc]

/-- Successful Parse runs are successful parseBinary runs at minimum priority
1 that consume the entire input. -/
theorem Parse_elim {ts : List Tok} {t : Expr} (h : Parse ts = some t) :
    parseBinary (parseFuel ts) ts 1 = some (t, []) := by
  simp only [Parse, parseExpr] at h
  rcases hp : parseBinary (parseFuel ts) ts 1 with _ | ⟨e, rem⟩ <;> rw [hp] at h
  · exact Option.noConfusion h
  · cases rem with
    | nil =>
      dsimp only at h
      injection h with h2
      subst h2
      rfl
    | cons a b => exact Option.noConfusion h

/-- Counterexample for claim C3: the input (1+2)*3 parses to a tree evaluating
to 9, but its format string (which contains no parentheses) reparses to a tree
evaluating to 7.  Formatting does not preserve associativity and precedence
when the original tree contains a parenthesised lower-precedence subexpression
under a higher-precedence operator. -/
theorem claim_C3_counterexample :
    Parse (lexS [ '(', '1', '+', '2', ')', '*', '3' ]) =
      some (.binary '*' (.binary '+' (.num 1) (.num 2)) (.num 3)) ∧
    Eval (.binary '*' (.binary '+' (.num 1) (.num 2)) (.num 3)) = .ok 9 ∧
    Parse (lexS (fmt (.binary '*' (.binary '+' (.num 1) (.num 2)) (.num 3)))) =
      some (.binary '+' (.num 1) (.binary '*' (.num 2) (.num 3))) ∧
    Eval (.binary '+' (.num 1) (.binary '*' (.num 2) (.num 3))) = .ok 7 := by
  refine ⟨by decide, by norm_num [Eval], ?_, by norm_num [Eval]⟩
  have hg : GoodTree (.binary '*' (.binary '+' (.num 1) (.num 2)) (.num 3)) :=
    ⟨by decide, ⟨by decide, ⟨by norm_num, by norm_num⟩,
      by norm_num, by norm_num⟩, by norm_num, by norm_num⟩
  have hfmt := lexS_fmt _ [] hg (Or.inl rfl)
  rw [List.append_nil] at hfmt
  rw [hfmt, show lexS ([] : List Char) = [] from rfl, List.append_nil]
  decide

/-- Amended claim C3: for every parenthesis-free token stream whose number
tokens hold nonnegative exactly-two-decimal values, the tree built by a
successful Parse formats to a string that reparses to exactly the same tree
(hence the same evaluation).  In general the round trip fails, because format
prints no parentheses: the counterexample input (1+2)*3 evaluates to 9 while
its reparsed format evaluates to 7, and two-decimal literal rendering is
lossy for other values. -/
theorem claim_C3_amended (ts : List Tok) (t : Expr)
    (hnp : Tok.tsym '(' ∉ ts) (hgood : ∀ tk ∈ ts, GoodTok tk)
    (h : Parse ts = some t) :
    Parse (lexS (fmt t)) = some t := by
  have hpb := Parse_elim h
  obtain ⟨hi, hgt⟩ :=
    (parse_inorder (parseFuel ts)).2.2.1 ts 1 t [] hnp (le_refl 1) hpb
  rw [List.append_nil] at hi
  have hfmt := lexS_fmt t [] (hgt hgood) (Or.inl rfl)
  rw [List.append_nil] at hfmt
  rw [hfmt, show lexS ([] : List Char) = [] from rfl, List.append_nil, hi]
  exact h

/-- Witness for the amended claim C3 on the tree of 2*1+2. -/
theorem claim_C3_witness :
    Parse (lexS (fmt (.binary '+' (.binary '*' (.num 2) (.num 1)) (.num 2)))) =
      some (.binary '+' (.binary '*' (.num 2) (.num 1)) (.num 2)) := by
  apply claim_C3_amended
    [Tok.tnum 2, Tok.tsym '*', Tok.tnum 1, Tok.tsym '+', Tok.tnum 2]
  · decide
  · intro tk htk
    fin_cases htk <;> constructor <;> norm_num
  · decide
